import Mathlib

/-!
Verification of `fix_use_client.py`, a one-off file-repair script: it walks a
source tree, and for each `.js` file whose trimmed first line contains
`export const dynamic` and whose trimmed second line contains `"use client"`,
swaps the first two lines in place, printing a report.

The script is embedded shallowly: a file's text content is the list of its
lines as produced by `readlines` (each line keeping its terminator), the
filesystem handed to a run is a list of path/content entries, and a per-file
exception (read, decode, permission or write failure) is represented by an
`exn` content carrying the exception message that the `except` clause prints.
-/

namespace FixUseClient

/-- The characters stripped by Python `str.strip()`: those for which
`str.isspace()` is true (ASCII whitespace, the C1 separators, and the
Unicode space characters). -/
def pyIsSpace (c : Char) : Bool :=
  c = ' ' || c = '\t' || c = '\n' || c = '\x0b' || c = '\x0c' || c = '\r' ||
  c = '\x1c' || c = '\x1d' || c = '\x1e' || c = '\x1f' || c = '\x85' ||
  c = '\xa0' || c = ' ' || c = ' ' || c = ' ' || c = ' ' ||
  c = ' ' || c = ' ' || c = ' ' || c = ' ' || c = ' ' ||
  c = ' ' || c = ' ' || c = ' ' || c = ' ' || c = ' ' ||
  c = ' ' || c = ' ' || c = '　'

/-- Python `str.strip()` on a character list: drop whitespace from both ends. -/
def stripList (l : List Char) : List Char :=
  (l.dropWhile pyIsSpace).rdropWhile pyIsSpace

/-- Python `str.strip()` with no argument. -/
def pyStrip (s : String) : String :=
  String.mk (stripList s.data)

/-- Auxiliary for Python's substring test: does `needle` occur as a
contiguous run inside the list? -/
def substrAux (needle : List Char) : List Char → Bool
  | [] => needle.isEmpty
  | c :: cs => needle.isPrefixOf (c :: cs) || substrAux needle cs

/-- Python `needle in hay` on strings: substring containment. -/
def containsSub (hay needle : String) : Bool :=
  substrAux needle.data hay.data

/-- The marker looked for in the (stripped) first line. -/
def markerDynamic : String := "export const dynamic"

/-- The marker looked for in the (stripped) second line. -/
def markerUseClient : String := "\"use client\""

/-- The test at line 18 of the script: `'export const dynamic' in line0 and
'"use client"' in line1`, where `line0`/`line1` are the stripped first two
lines. -/
def swapCondition (a b : String) : Bool :=
  containsSub (pyStrip a) markerDynamic && containsSub (pyStrip b) markerUseClient

/-- Lines 14–23 of the script on one file's line buffer: if there are at
least two lines and the condition holds, swap the (unstripped) first two
lines and report that a write happened. -/
def fixLines : List String → List String × Bool
  | a :: b :: rest =>
    if swapCondition a b then (b :: a :: rest, true) else (a :: b :: rest, false)
  | ls => (ls, false)

/-- What the run finds on disk at one path.  `ok lines` is a file whose
text reads (and decodes) as the given line buffer; `exn msg` is a file
whose processing raises an exception (read, decode, permission or write
failure) that `str(e)` renders as `msg`. -/
inductive FileContent where
  | ok : List String → FileContent
  | exn : String → FileContent
deriving DecidableEq

/-- A candidate file: its path as produced by the glob, and its content. -/
structure FileEntry where
  path : String
  content : FileContent
deriving DecidableEq

/-- The body of the `for` loop (lines 9–28) on one file: returns the
file's state after the iteration, the lines printed, and the amount added
to `count`.  An exception is caught and logged; a matched file is
rewritten with its first two lines swapped, reported and counted. -/
def processEntry (e : FileEntry) : FileEntry × List String × Nat :=
  match e.content with
  | .exn msg => (e, ["Error processing " ++ e.path ++ ": " ++ msg], 0)
  | .ok ls =>
    match fixLines ls with
    | (ls', true) => ({ e with content := .ok ls' }, ["Fixed: " ++ e.path], 1)
    | (_, false) => (e, [], 0)

/-- The whole `for` loop over the discovered files, in enumeration order:
final filesystem state, concatenated console output, final `count`. -/
def processAll : List FileEntry → List FileEntry × List String × Nat
  | [] => ([], [], 0)
  | e :: es =>
    let r := processEntry e
    let rs := processAll es
    (r.1 :: rs.1, r.2.1 ++ rs.2.1, r.2.2 + rs.2.2)

/-- The function `fix_use_client_directive()` on an already-enumerated filesystem: the
loop followed by the summary print at line 30. -/
def fix_use_client_directive (fs : List FileEntry) : List FileEntry × List String × Nat :=
  let r := processAll fs
  (r.1, r.2.1 ++ ["\nTotal files fixed: " ++ toString r.2.2], r.2.2)

/-- A directory tree rooted at the working directory: the argument of the
enumeration `glob.glob('**/*.js', recursive=True)` at line 5. -/
inductive FSTree where
  | file : String → FSTree
  | dir : String → List FSTree → FSTree

/-- A name that Python's glob treats as hidden: it starts with a dot and
is matched by neither a `*` component nor `**`. -/
def isHiddenName (n : String) : Bool :=
  match n.data with
  | [] => false
  | c :: _ => c = '.'

/-- Does a name end in `.js`? -/
def endsWithJs (n : String) : Bool := ['.', 'j', 's'].isSuffixOf n.data

/-- Does a name match the glob component `*.js`?  `*` matches any run of
characters of a non-hidden name, so this is: not hidden, and ends in
`.js`. -/
def matchesStarJs (n : String) : Bool := !isHiddenName n && endsWithJs n

mutual

/-- Paths produced by `glob.glob('**/*.js', recursive=True)` from one
tree entry, each prefixed by the path of the directory containing it:
`**` descends through any chain of non-hidden directories (including the
empty chain) and `*.js` matches any non-hidden entry — file or
directory — whose name ends in `.js`. -/
def globJsTree (pre : String) : FSTree → List String
  | .file n => if matchesStarJs n then [pre ++ n] else []
  | .dir n cs =>
    if isHiddenName n then []
    else (if matchesStarJs n then [pre ++ n] else []) ++ globJsList (pre ++ n ++ "/") cs

/-- Mapping `globJsTree` over a directory's children, in order. -/
def globJsList (pre : String) : List FSTree → List String
  | [] => []
  | t :: ts => globJsTree pre t ++ globJsList pre ts

end

/-- The files the run enumerates under the root. -/
def globJs (roots : List FSTree) : List String := globJsList "" roots

mutual

/-- Every file with extension `.js` in one tree entry, hidden or not:
the set the spec claims is examined. -/
def allJsTree (pre : String) : FSTree → List String
  | .file n => if endsWithJs n then [pre ++ n] else []
  | .dir n cs => allJsList (pre ++ n ++ "/") cs

/-- Mapping `allJsTree` over a directory's children, in order. -/
def allJsList (pre : String) : List FSTree → List String
  | [] => []
  | t :: ts => allJsTree pre t ++ allJsList pre ts

end

/-- Every file with extension `.js` under the root. -/
def allJs (roots : List FSTree) : List String := allJsList "" roots

/-- Outcome of running the script's `__main__` block. -/
inductive RunResult where
  | fatal : RunResult
  | completed : List FileEntry → List String → Nat → RunResult
deriving DecidableEq

/-- The `__main__` block (lines 32–34): `os.chdir` on a missing or
inaccessible root (`none`) raises before `fix_use_client_directive` is
called, so nothing is read, modified or printed; otherwise the run
enumerates the root's tree and processes each discovered path, whose
on-disk state is given by `contentOf`. -/
def mainRun (root : Option (List FSTree)) (contentOf : String → FileContent) : RunResult :=
  match root with
  | none => .fatal
  | some ts =>
    let r := fix_use_client_directive ((globJs ts).map fun p => ⟨p, contentOf p⟩)
    .completed r.1 r.2.1 r.2.2

/-- Does the tree contain a file named `n` reached by descending through
the directory chain `dirs`?  This locates one file, saying nothing about
the rest of the tree. -/
def treeHasFileIn (dirs : List String) (n : String) (ts : List FSTree) : Bool :=
  match dirs with
  | [] =>
    ts.any fun t =>
      match t with
      | .file m => m == n
      | .dir _ _ => false
  | d :: rest =>
    ts.any fun t =>
      match t with
      | .dir m cs => m == d && treeHasFileIn rest n cs
      | .file _ => false

/-- The relative path of the file named `n` under the directory chain
`dirs`, as the glob prints it. -/
def joinedPath (dirs : List String) (n : String) : String :=
  match dirs with
  | [] => n
  | d :: rest => d ++ "/" ++ joinedPath rest n

/-- The test of lines 14–18 as a single predicate on a line buffer: at
least two lines, and the stripped first two lines contain the two
markers. -/
def condHolds : List String → Bool
  | a :: b :: _ => swapCondition a b
  | _ => false

/-- The console lines one file's loop iteration prints. -/
def entryOutput (e : FileEntry) : List String := (processEntry e).2.1

/-- Does the iteration for this file reach the rewrite (condition matched,
no exception)? -/
def entryMatched (e : FileEntry) : Bool :=
  match e.content with
  | .ok ls => condHolds ls
  | .exn _ => false

/-- Does the iteration for this file change its on-disk content?  This
needs the match and, additionally, distinct first two lines. -/
def entryChanges (e : FileEntry) : Bool :=
  match e.content with
  | .ok (a :: b :: _) => swapCondition a b && decide (a ≠ b)
  | _ => false

/-- How many positions of the filesystem changed between two snapshots. -/
def changedCount (old new : List FileEntry) : Nat :=
  (old.zip new).countP fun pr => decide (pr.1.content ≠ pr.2.content)

/-- Is this console line of the `Fixed: <path>` form?  It is exactly when
its first seven characters are `Fixed: `. -/
def startsWithFixed (s : String) : Bool := decide (s.data.take 7 = "Fixed: ".data)

/-- A file whose first two lines are equal and each contain both markers:
the swap condition holds, but swapping changes nothing. -/
def sameLineFile : FileEntry :=
  ⟨"app/page.js",
    .ok ["export const dynamic \"use client\"\n",
      "export const dynamic \"use client\"\n"]⟩

/-- A line buffer satisfying the swap condition. -/
def matchingLines : List String :=
  ["export const dynamic = \"force-dynamic\"\n", "\"use client\"\n", "f()\n"]

/-- A directory of 3 matching and 2 non-matching files. -/
def scenarioFs : List FileEntry :=
  [⟨"a.js", .ok matchingLines⟩, ⟨"b.js", .ok ["let b = 0\n", "run()\n"]⟩,
   ⟨"c.js", .ok matchingLines⟩, ⟨"d.js", .ok ["\"use client\"\n"]⟩,
   ⟨"e.js", .ok matchingLines⟩]

/-- A root holding one `.js` file inside a hidden directory. -/
def hiddenRoot : List FSTree := [.dir ".next" [.file "page.js"]]

/-- A root holding hidden entries (a `.git` directory and a hidden file)
next to a visible `.js` file two levels deep. -/
def mixedRoot : List FSTree :=
  [.dir ".git" [.file "config.js"],
   .dir "src" [.dir "app" [.file "page.js"], .file "util.js"],
   .file ".hidden.js"]

-- quick sanity checks on the scenarios of the spec
example : fixLines ["\"use client\"\n", "export const dynamic = \"force-dynamic\"\n", "other code...\n"]
    = (["\"use client\"\n", "export const dynamic = \"force-dynamic\"\n", "other code...\n"], false) := by
  decide

example : fixLines ["export const dynamic = \"force-dynamic\"\n", "\"use client\"\n", "other code...\n"]
    = (["\"use client\"\n", "export const dynamic = \"force-dynamic\"\n", "other code...\n"], true) := by
  decide

example : fixLines [] = ([], false) := by decide

example : fixLines ["only line\n"] = (["only line\n"], false) := by decide

end FixUseClient

namespace FixUseClient

/-! ### Structural lemmas about the per-file step and the loop -/

theorem fixLines_of_condHolds_false (ls : List String) (h : condHolds ls = false) :
    fixLines ls = (ls, false) := by
  match ls with
  | [] => rfl
  | [a] => rfl
  | a :: b :: rest => simp [condHolds] at h; simp [fixLines, h]

theorem fixLines_true_inv (ls ls' : List String) (h : fixLines ls = (ls', true)) :
    ∃ a b rest, ls = a :: b :: rest ∧ swapCondition a b = true ∧ ls' = b :: a :: rest := by
  match ls with
  | [] => simp [fixLines] at h
  | [a] => simp [fixLines] at h
  | a :: b :: rest =>
    by_cases hc : swapCondition a b
    · refine ⟨a, b, rest, rfl, hc, ?_⟩
      simp [fixLines, hc] at h
      exact h.symm
    · simp [fixLines, hc] at h

theorem fixLines_false_inv (ls ls' : List String) (h : fixLines ls = (ls', false)) :
    ls' = ls := by
  match ls with
  | [] => simp [fixLines] at h; exact h
  | [a] => simp [fixLines] at h; exact h.symm
  | a :: b :: rest =>
    by_cases hc : swapCondition a b
    · simp [fixLines, hc] at h
    · simp [fixLines, hc] at h
      exact h.symm

theorem fixLines_snd (ls : List String) : (fixLines ls).2 = condHolds ls := by
  match ls with
  | [] => rfl
  | [a] => rfl
  | a :: b :: rest => by_cases hc : swapCondition a b <;> simp [fixLines, condHolds, hc]

theorem processAll_eq (fs : List FileEntry) :
    processAll fs = (fs.map fun e => (processEntry e).1,
      fs.flatMap entryOutput,
      (fs.map fun e => (processEntry e).2.2).sum) := by
  induction fs with
  | nil => rfl
  | cons e es ih => simp [processAll, ih, entryOutput]

end FixUseClient

namespace FixUseClient

/-! ### Substring containment and stripping -/

theorem substrAux_iff (n : List Char) : ∀ l, substrAux n l = true ↔ n <:+: l := by
  intro l
  induction l with
  | nil => simp [substrAux, List.isEmpty_iff, List.infix_nil]
  | cons c cs ih =>
    simp [substrAux, List.isPrefixOf_iff_prefix, ih, List.infix_cons_iff]

theorem containsSub_iff (hay needle : String) :
    containsSub hay needle = true ↔ needle.data <:+: hay.data :=
  substrAux_iff needle.data hay.data

theorem stripList_within (l : List Char) : stripList l <:+: l := by
  unfold stripList
  exact List.IsInfix.trans
    (List.IsPrefix.isInfix ( List.rdropWhile_prefix pyIsSpace (l.dropWhile pyIsSpace)))
    (List.IsSuffix.isInfix (List.dropWhile_suffix pyIsSpace))

theorem dropWhile_append_cons {α : Type} (p : α → Bool) (s : List α) (a : α)
    (t : List α) (ha : p a = false) :
    (s ++ a :: t).dropWhile p = s.dropWhile p ++ a :: t := by
  rw [List.dropWhile_append]
  by_cases h : (s.dropWhile p).isEmpty
  · rw [if_pos h, List.dropWhile_cons_of_neg (by simp [ha]), List.isEmpty_iff.mp h]
    simp
  · rw [if_neg h]

theorem infix_dropWhile_of_head {α : Type} (p : α → Bool) (a : α) (n : List α)
    (ha : p a = false) (l : List α) (h : (a :: n) <:+: l) :
    (a :: n) <:+: l.dropWhile p := by
  obtain ⟨s, t, rfl⟩ := h
  rw [List.append_assoc, List.cons_append, dropWhile_append_cons p s a (n ++ t) ha]
  exact ⟨s.dropWhile p, t, by simp⟩

theorem infix_rdropWhile_of_getLast {α : Type} (p : α → Bool) (n : List α)
    (hn : n ≠ []) (hlast : p (n.getLast hn) = false) (l : List α) (h : n <:+: l) :
    n <:+: l.rdropWhile p := by
  have hrev : n.reverse <:+: l.reverse.dropWhile p := by
    have hne : n.reverse ≠ [] := by simpa using hn
    have hhd : p (n.reverse.head hne) = false := by
      rw [List.head_reverse]
      exact hlast
    have hcons : n.reverse = n.reverse.head hne :: n.reverse.tail :=
      (List.head_cons_tail _ hne).symm
    have hinf : n.reverse <:+: l.reverse := List.reverse_infix.mpr h
    rw [hcons] at hinf ⊢
    exact infix_dropWhile_of_head p _ _ hhd _ hinf
  unfold List.rdropWhile
  have := List.reverse_infix.mpr hrev
  simpa using this

theorem infix_stripList_iff (n : List Char) (hn : n ≠ [])
    (hhead : pyIsSpace (n.head hn) = false)
    (hlast : pyIsSpace (n.getLast hn) = false) (l : List Char) :
    n <:+: stripList l ↔ n <:+: l := by
  constructor
  · intro h
    exact h.trans (stripList_within l)
  · intro h
    unfold stripList
    apply infix_rdropWhile_of_getLast pyIsSpace n hn hlast
    have hcons : n = n.head hn :: n.tail := (List.head_cons_tail _ hn).symm
    rw [hcons] at h ⊢
    exact infix_dropWhile_of_head pyIsSpace _ _ hhead _ h

theorem containsSub_pyStrip (s m : String) (hm : m.data ≠ [])
    (hhead : pyIsSpace (m.data.head hm) = false)
    (hlast : pyIsSpace (m.data.getLast hm) = false) :
    containsSub (pyStrip s) m = containsSub s m := by
  have h1 := containsSub_iff (pyStrip s) m
  have h2 := containsSub_iff s m
  have hdata : (pyStrip s).data = stripList s.data := rfl
  rw [hdata] at h1
  rw [Bool.eq_iff_iff, h1, h2]
  exact infix_stripList_iff m.data hm hhead hlast s.data

end FixUseClient

namespace FixUseClient

/-! ### Claim theorems -/

/-- C10: the match decision is invariant under leading/trailing whitespace
of the first two lines: the condition tested on the stripped lines agrees
with the same condition tested on the raw lines, because neither marker
substring begins or ends with a whitespace character. -/
theorem match_invariant_under_strip (a b : String) :
    swapCondition a b
      = (containsSub a markerDynamic && containsSub b markerUseClient) := by
  unfold swapCondition
  rw [containsSub_pyStrip a markerDynamic (by decide) (by decide) (by decide),
    containsSub_pyStrip b markerUseClient (by decide) (by decide) (by decide)]

/-- C3: a skipped file — fewer than 2 lines, or a marker missing from the
corresponding stripped line — comes out of the run byte-identical to how
it went in. -/
theorem skipped_files_unchanged (fs : List FileEntry) (i : Nat) (e : FileEntry)
    (ls : List String) (he : fs[i]? = some e) (hok : e.content = .ok ls)
    (hskip : ls.length < 2
      ∨ containsSub (pyStrip (ls.getD 0 "")) markerDynamic = false
      ∨ containsSub (pyStrip (ls.getD 1 "")) markerUseClient = false) :
    (fix_use_client_directive fs).1[i]? = some e := by
  have hc : condHolds ls = false := by
    match ls with
    | [] => rfl
    | [a] => rfl
    | a :: b :: rest =>
      rcases hskip with h | h | h
      · simp at h
        omega
      · simp only [List.getD_cons_zero] at h
        simp [condHolds, swapCondition, h]
      · simp only [List.getD_cons_succ, List.getD_cons_zero] at h
        simp [condHolds, swapCondition, h]
  have h1 : (fix_use_client_directive fs).1 = fs.map fun x => (processEntry x).1 := by
    show (processAll fs).1 = _
    rw [processAll_eq]
  have h2 : processEntry e = (e, [], 0) := by
    simp [processEntry, hok, fixLines_of_condHolds_false ls hc]
  rw [h1, List.getElem?_map, he]
  simp [h2]

/-- Closed instance of C3: a one-line file passes through a run
unchanged. -/
theorem skipped_files_unchanged_witness :
    (fix_use_client_directive [⟨"lib/a.js", .ok ["let x = 1\n"]⟩]).1[0]?
      = some ⟨"lib/a.js", .ok ["let x = 1\n"]⟩ :=
  skipped_files_unchanged [⟨"lib/a.js", .ok ["let x = 1\n"]⟩] 0
    ⟨"lib/a.js", .ok ["let x = 1\n"]⟩ ["let x = 1\n"] rfl rfl
    (Or.inl (by decide))

/-- C6: when the root directory is missing or inaccessible, `os.chdir`
raises before `fix_use_client_directive` is even called: the run ends
fatally, with no surviving filesystem change, console output or summary
report — `RunResult.fatal` carries none. -/
theorem missing_root_aborts (contentOf : String → FileContent) :
    mainRun none contentOf = RunResult.fatal :=
  rfl

/-- C1: along a run, every file is either untouched (its path and content
are unchanged) or has exactly its first two lines exchanged, the rest of
its lines passing through unchanged — in particular the line count is
preserved. -/
theorem swap_only_or_untouched (fs : List FileEntry) :
    List.Forall₂
      (fun e e' => e'.path = e.path ∧
        (e'.content = e.content ∨ ∃ a b rest, e.content = .ok (a :: b :: rest) ∧
          e'.content = .ok (b :: a :: rest)))
      fs (fix_use_client_directive fs).1 := by
  have h1 : (fix_use_client_directive fs).1 = fs.map fun x => (processEntry x).1 := by
    show (processAll fs).1 = _
    rw [processAll_eq]
  rw [h1, List.forall₂_map_right_iff, List.forall₂_same]
  intro e he
  match hc : e.content with
  | .exn m => simp [processEntry, hc]
  | .ok ls =>
    match hfix : fixLines ls with
    | (ls', false) =>
      simp [processEntry, hc, hfix]
    | (ls', true) =>
      obtain ⟨a, b, rest, hls, hcond, hls'⟩ := fixLines_true_inv ls ls' hfix
      have hpe : processEntry e = ({ e with content := .ok ls' }, ["Fixed: " ++ e.path], 1) := by
        simp [processEntry, hc, hfix]
      rw [hpe]
      exact ⟨rfl, Or.inr ⟨a, b, rest, by rw [hls], by simp [hls']⟩⟩

end FixUseClient

namespace FixUseClient

/-- C9: the per-file step is idempotent provided the proviso holds — after
the first application the (possibly swapped) first two lines no longer
satisfy the match condition.  Without the proviso the second application
can swap back: with two distinct lines that each contain both markers,
applying the step to the once-fixed buffer restores the original order
(and reports another fix). -/
theorem fix_idempotent_with_proviso :
    (∀ ls : List String,
      (∀ a b rest, (fixLines ls).1 = a :: b :: rest → swapCondition a b = false) →
      (fixLines (fixLines ls).1).1 = (fixLines ls).1)
    ∧ fixLines
        (fixLines ["export const dynamic \"use client\" A\n",
          "export const dynamic \"use client\" B\n", "x\n"]).1
      = (["export const dynamic \"use client\" A\n",
          "export const dynamic \"use client\" B\n", "x\n"], true) := by
  constructor
  · intro ls h
    have hc : condHolds (fixLines ls).1 = false := by
      rcases hsh : (fixLines ls).1 with _ | ⟨a, _ | ⟨b, rest⟩⟩
      · rfl
      · rfl
      · simp [condHolds, h a b rest hsh]
    rw [fixLines_of_condHolds_false _ hc]
  · decide

/-- Closed instance of C9: on a buffer the step leaves alone, a second
application changes nothing. -/
theorem fix_idempotent_with_proviso_witness :
    (fixLines (fixLines ["alpha\n", "beta\n"]).1).1
      = (fixLines ["alpha\n", "beta\n"]).1 := by
  apply fix_idempotent_with_proviso.1
  intro a b rest h
  rw [show fixLines ["alpha\n", "beta\n"] = (["alpha\n", "beta\n"], false) from by decide] at h
  simp only [List.cons.injEq] at h
  obtain ⟨rfl, rfl, rfl⟩ := h
  decide

theorem processAll_append (xs ys : List FileEntry) :
    processAll (xs ++ ys)
      = ((processAll xs).1 ++ (processAll ys).1,
        (processAll xs).2.1 ++ (processAll ys).2.1,
        (processAll xs).2.2 + (processAll ys).2.2) := by
  induction xs with
  | nil => simp [processAll]
  | cons e es ih => simp [processAll, ih, Nat.add_assoc]

/-- C5: an exception on one file is caught and logged with the file's path
and message, every other file before and after it is processed exactly as
it would otherwise be, and the failing file contributes nothing to the
final counter. -/
theorem per_file_error_isolated (pre post : List FileEntry) (p m : String) :
    (fix_use_client_directive (pre ++ ⟨p, .exn m⟩ :: post)).1
        = (processAll pre).1 ++ ⟨p, .exn m⟩ :: (processAll post).1
    ∧ (fix_use_client_directive (pre ++ ⟨p, .exn m⟩ :: post)).2.1
        = (processAll pre).2.1 ++ ("Error processing " ++ p ++ ": " ++ m)
            :: ((processAll post).2.1
              ++ ["\nTotal files fixed: "
                    ++ toString ((processAll pre).2.2 + (processAll post).2.2)])
    ∧ (fix_use_client_directive (pre ++ ⟨p, .exn m⟩ :: post)).2.2
        = (processAll pre).2.2 + (processAll post).2.2 := by
  have hmid : processEntry ⟨p, .exn m⟩
      = (⟨p, .exn m⟩, ["Error processing " ++ p ++ ": " ++ m], 0) := rfl
  refine ⟨?_, ?_, ?_⟩
  · show (processAll (pre ++ ⟨p, .exn m⟩ :: post)).1 = _
    rw [processAll_append]
    simp [processAll, hmid]
  · show (processAll (pre ++ ⟨p, .exn m⟩ :: post)).2.1 ++ _ = _
    rw [processAll_append]
    simp [processAll, hmid]
  · show (processAll (pre ++ ⟨p, .exn m⟩ :: post)).2.2 = _
    rw [processAll_append]
    simp [processAll, hmid]

end FixUseClient

namespace FixUseClient

theorem processEntry_cnt (e : FileEntry) :
    (processEntry e).2.2 = if entryMatched e then 1 else 0 := by
  match hc : e.content with
  | .exn m => simp [processEntry, hc, entryMatched]
  | .ok ls =>
    match hfix : fixLines ls with
    | (ls', flag) =>
      have hflag : flag = condHolds ls := by rw [← fixLines_snd ls, hfix]
      cases flag with
      | false => simp [processEntry, hc, hfix, entryMatched, ← hflag]
      | true => simp [processEntry, hc, hfix, entryMatched, ← hflag]

theorem processEntry_changed (e : FileEntry) :
    decide (e.content ≠ (processEntry e).1.content) = entryChanges e := by
  match hc : e.content with
  | .exn m => simp [processEntry, hc, entryChanges]
  | .ok ls =>
    match hfix : fixLines ls with
    | (ls', false) =>
      have hls : ls' = ls := fixLines_false_inv ls ls' hfix
      have hcond : condHolds ls = false := by rw [← fixLines_snd ls, hfix]
      have hpe : (processEntry e).1 = e := by simp [processEntry, hc, hfix]
      rw [hpe]
      match ls, hcond with
      | [], _ => simp [entryChanges, hc]
      | [a], _ => simp [entryChanges, hc]
      | a :: b :: rest, hcond =>
        have hsw : swapCondition a b = false := by simpa [condHolds] using hcond
        simp [entryChanges, hc, hsw]
    | (ls', true) =>
      obtain ⟨a, b, rest, hlseq, hcond, hls'⟩ := fixLines_true_inv ls ls' hfix
      have hpe : (processEntry e).1.content = .ok (b :: a :: rest) := by
        simp [processEntry, hc, hfix, hls']
      rw [hpe, hlseq]
      have hiff : (FileContent.ok (a :: b :: rest) = FileContent.ok (b :: a :: rest))
          ↔ a = b := by
        constructor
        · intro h
          simp only [FileContent.ok.injEq, List.cons.injEq] at h
          exact h.1
        · intro h
          rw [h]
      rw [show (decide (¬FileContent.ok (a :: b :: rest) = FileContent.ok (b :: a :: rest)))
          = decide (¬a = b) from by rw [decide_eq_decide]; exact not_congr hiff]
      simp [entryChanges, hc, hlseq, hcond]

end FixUseClient

namespace FixUseClient

/-- C2 fails as stated: on a file whose first two (equal) lines each
contain both markers, the condition matches and the file is rewritten —
the counter reports 1 — yet the rewritten content is byte-identical to
the original, so the number of files whose content actually changed
is 0. -/
theorem counter_ne_changed_cex :
    (fix_use_client_directive [sameLineFile]).2.2 = 1
    ∧ (fix_use_client_directive [sameLineFile]).1 = [sameLineFile]
    ∧ changedCount [sameLineFile] (fix_use_client_directive [sameLineFile]).1 = 0 := by
  decide

/-- C2 amended: the printed counter equals the number of files that
matched the swap condition and were rewritten; the number of files whose
content actually changed equals the number of matched files whose first
two lines differ.  The two agree except when a matched file's first two
lines are equal. -/
theorem counter_counts_rewrites (fs : List FileEntry) :
    (fix_use_client_directive fs).2.2 = fs.countP entryMatched
    ∧ changedCount fs (fix_use_client_directive fs).1 = fs.countP entryChanges := by
  constructor
  · show (processAll fs).2.2 = _
    induction fs with
    | nil => rfl
    | cons e es ih =>
      show (processEntry e).2.2 + (processAll es).2.2 = _
      rw [ih, processEntry_cnt, List.countP_cons]
      cases entryMatched e <;> simp [Nat.add_comm]
  · have key : ∀ gs : List FileEntry,
        ((gs.zip (gs.map fun x => (processEntry x).1)).countP
            fun pr => decide (pr.1.content ≠ pr.2.content))
          = gs.countP entryChanges := by
      intro gs
      induction gs with
      | nil => rfl
      | cons e es ih =>
        simp only [List.map_cons, List.zip_cons_cons, List.countP_cons] at ih ⊢
        rw [ih, processEntry_changed]
    have h1 : (fix_use_client_directive fs).1 = fs.map fun x => (processEntry x).1 := by
      show (processAll fs).1 = _
      rw [processAll_eq]
    rw [h1]
    exact key fs

end FixUseClient

namespace FixUseClient

/-- C7: the console output of a run is exactly the concatenation, in
enumeration order, of each file's own lines — one `Fixed: <path>` line
when the file is repaired (and then it is counted), one
`Error processing <path>: <msg>` line when its processing raises (counted
as 0), nothing otherwise (the file is then also left unchanged) —
followed by the single summary line `\nTotal files fixed: <count>`. -/
theorem output_shape (fs : List FileEntry) :
    (fix_use_client_directive fs).2.1
        = fs.flatMap entryOutput
          ++ ["\nTotal files fixed: " ++ toString (fix_use_client_directive fs).2.2]
    ∧ ∀ e : FileEntry,
        (∃ ls, e.content = .ok ls ∧ condHolds ls = true
          ∧ entryOutput e = ["Fixed: " ++ e.path] ∧ (processEntry e).2.2 = 1)
        ∨ (∃ m, e.content = .exn m
          ∧ entryOutput e = ["Error processing " ++ e.path ++ ": " ++ m]
          ∧ (processEntry e).2.2 = 0)
        ∨ (entryOutput e = [] ∧ (processEntry e).2.2 = 0 ∧ (processEntry e).1 = e) := by
  constructor
  · show (processAll fs).2.1 ++ ["\nTotal files fixed: " ++ toString (processAll fs).2.2]
        = fs.flatMap entryOutput
          ++ ["\nTotal files fixed: " ++ toString (processAll fs).2.2]
    rw [processAll_eq]
  · intro e
    match hc : e.content with
    | .exn m =>
      exact Or.inr (Or.inl ⟨m, rfl, by simp [entryOutput, processEntry, hc],
        by simp [processEntry, hc]⟩)
    | .ok ls =>
      match hfix : fixLines ls with
      | (ls', false) =>
        refine Or.inr (Or.inr ⟨?_, ?_, ?_⟩) <;> simp [entryOutput, processEntry, hc, hfix]
      | (ls', true) =>
        have hcond : condHolds ls = true := by rw [← fixLines_snd ls, hfix]
        exact Or.inl ⟨ls, rfl, hcond, by simp [entryOutput, processEntry, hc, hfix],
          by simp [processEntry, hc, hfix]⟩

end FixUseClient

namespace FixUseClient

theorem startsWithFixed_append (s t : String) (h : 7 ≤ s.data.length) :
    startsWithFixed (s ++ t) = startsWithFixed s := by
  have hx : (s ++ t).data.take 7 = s.data.take 7 := by
    rw [String.data_append, List.take_append_eq_append_take, Nat.sub_eq_zero_of_le h,
      List.take_zero, List.append_nil]
  unfold startsWithFixed
  rw [hx]

theorem startsWithFixed_fixedLine (p : String) :
    startsWithFixed ("Fixed: " ++ p) = true := by
  rw [startsWithFixed_append "Fixed: " p (by decide)]
  decide

theorem startsWithFixed_errorLine (p m : String) :
    startsWithFixed ("Error processing " ++ p ++ ": " ++ m) = false := by
  have base : 7 ≤ ("Error processing ").data.length := by decide
  have h1 : 7 ≤ ("Error processing " ++ p).data.length := by
    rw [String.data_append, List.length_append]
    omega
  have h2 : 7 ≤ (("Error processing " ++ p) ++ ": ").data.length := by
    rw [String.data_append, List.length_append]
    omega
  rw [startsWithFixed_append _ m h2, startsWithFixed_append _ ": " h1,
    startsWithFixed_append _ p base]
  decide

theorem startsWithFixed_summary (c : Nat) :
    startsWithFixed ("\nTotal files fixed: " ++ toString c) = false := by
  rw [startsWithFixed_append "\nTotal files fixed: " _ (by decide)]
  decide

theorem countP_entryOutput (e : FileEntry) :
    (entryOutput e).countP startsWithFixed = (processEntry e).2.2 := by
  match hc : e.content with
  | .exn m =>
    have h1 : entryOutput e = ["Error processing " ++ e.path ++ ": " ++ m] := by
      simp [entryOutput, processEntry, hc]
    rw [h1]
    simp [List.countP_cons, startsWithFixed_errorLine, processEntry, hc]
  | .ok ls =>
    match hfix : fixLines ls with
    | (ls', false) =>
      have h1 : entryOutput e = [] := by simp [entryOutput, processEntry, hc, hfix]
      rw [h1]
      simp [processEntry, hc, hfix]
    | (ls', true) =>
      have h1 : entryOutput e = ["Fixed: " ++ e.path] := by
        simp [entryOutput, processEntry, hc, hfix]
      rw [h1]
      simp [List.countP_cons, startsWithFixed_fixedLine, processEntry, hc, hfix]

/-- C8: in every completed run the count in the summary line equals the
number of `Fixed: ` lines printed; in particular, on a directory of 3
matching and 2 non-matching files, 3 `Fixed: ` lines are printed and the
summary line reads `\nTotal files fixed: 3`. -/
theorem summary_equals_fixed_lines (fs : List FileEntry) :
    (fix_use_client_directive fs).2.2
        = (fix_use_client_directive fs).2.1.countP startsWithFixed
    ∧ ((fix_use_client_directive scenarioFs).2.2 = 3
      ∧ (fix_use_client_directive scenarioFs).2.1.countP startsWithFixed = 3
      ∧ (fix_use_client_directive scenarioFs).2.1.getLast?
          = some "\nTotal files fixed: 3") := by
  have key : ∀ gs : List FileEntry,
      (processAll gs).2.2 = (processAll gs).2.1.countP startsWithFixed := by
    intro gs
    induction gs with
    | nil => rfl
    | cons e es ih =>
      show (processEntry e).2.2 + (processAll es).2.2
          = (entryOutput e ++ (processAll es).2.1).countP startsWithFixed
      rw [List.countP_append, countP_entryOutput, ih]
  constructor
  · show (processAll fs).2.2
        = ((processAll fs).2.1
            ++ ["\nTotal files fixed: " ++ toString (processAll fs).2.2]).countP
          startsWithFixed
    rw [List.countP_append]
    have h2 : (["\nTotal files fixed: " ++ toString (processAll fs).2.2]).countP
        startsWithFixed = 0 := by
      simp [List.countP_cons, startsWithFixed_summary]
    rw [h2, Nat.add_zero]
    exact key fs
  · decide

end FixUseClient

namespace FixUseClient

/-- C4 fails as stated: `.next/page.js` is a file with extension `.js`
under the root, but `glob.glob('**/*.js', recursive=True)` skips hidden
directories (names starting with a dot), so the run never examines it. -/
theorem glob_misses_hidden_cex :
    allJs hiddenRoot = [".next/page.js"] ∧ globJs hiddenRoot = [] := by
  decide

theorem mem_globJsList_of_mem (pre : String) (t : FSTree) (ts : List FSTree)
    (ht : t ∈ ts) (p : String) (hp : p ∈ globJsTree pre t) :
    p ∈ globJsList pre ts := by
  induction ts with
  | nil => cases ht
  | cons u us ih =>
    rcases List.mem_cons.mp ht with rfl | h
    · simp only [globJsList, List.mem_append]
      exact Or.inl hp
    · simp only [globJsList, List.mem_append]
      exact Or.inr (ih h)

theorem glob_reaches (n : String) (hjs : endsWithJs n = true)
    (hn : isHiddenName n = false) (dirs : List String) :
    ∀ (pre : String) (ts : List FSTree), treeHasFileIn dirs n ts = true →
      dirs.all (fun c => !isHiddenName c) = true →
      (pre ++ joinedPath dirs n) ∈ globJsList pre ts := by
  induction dirs with
  | nil =>
    intro pre ts hfile _
    simp only [treeHasFileIn, List.any_eq_true] at hfile
    obtain ⟨t, ht, hpt⟩ := hfile
    cases t with
    | dir m cs => simp at hpt
    | file m =>
      have hmn : m = n := by simpa using hpt
      subst hmn
      apply mem_globJsList_of_mem pre _ ts ht
      simp [globJsTree, joinedPath, matchesStarJs, hn, hjs]
  | cons d rest ih =>
    intro pre ts hfile hdirs
    simp only [treeHasFileIn, List.any_eq_true] at hfile
    obtain ⟨t, ht, hpt⟩ := hfile
    cases t with
    | file m => simp at hpt
    | dir m cs =>
      have hmd : m = d ∧ treeHasFileIn rest n cs = true := by simpa using hpt
      obtain ⟨rfl, hrec⟩ := hmd
      simp only [List.all_cons, Bool.and_eq_true] at hdirs
      have hnd : isHiddenName m = false := by simpa using hdirs.1
      apply mem_globJsList_of_mem pre (.dir m cs) ts ht
      simp only [globJsTree, hnd, Bool.false_eq_true, if_false, List.mem_append]
      have hpath : pre ++ joinedPath (m :: rest) n
          = (pre ++ m ++ "/") ++ joinedPath rest n := by
        simp [joinedPath, String.append_assoc]
      rw [hpath]
      exact Or.inr (ih (pre ++ m ++ "/") cs hrec hdirs.2)

/-- C4 amended: the run examines every file with extension `.js` whose
own path has no hidden component (no name starting with a dot), at any
nesting depth — regardless of hidden entries elsewhere in the tree; a
`.js` file inside a hidden directory, or itself hidden, is skipped by
the enumeration. -/
theorem glob_finds_all_js_of_no_hidden (roots : List FSTree)
    (dirs : List String) (n : String)
    (hfile : treeHasFileIn dirs n roots = true)
    (hjs : endsWithJs n = true)
    (hdirs : dirs.all (fun c => !isHiddenName c) = true)
    (hn : isHiddenName n = false) :
    joinedPath dirs n ∈ globJs roots :=
  glob_reaches n hjs hn dirs "" roots hfile hdirs

/-- Closed instance of the amended C4: `src/app/page.js` is enumerated
although the same tree also holds a hidden `.git` directory and a hidden
file. -/
theorem glob_finds_all_js_of_no_hidden_witness :
    joinedPath ["src", "app"] "page.js" ∈ globJs mixedRoot :=
  glob_finds_all_js_of_no_hidden mixedRoot ["src", "app"] "page.js"
    (by decide) (by decide) (by decide) (by decide)

end FixUseClient
